import Mathlib

/-!
Shallow embedding of rustdoc's cross-crate-information merge core:
`sorted_template.rs` (SortedTemplate, Offset, FileFormat, Display/FromStr),
`sorted_json.rs` (SortedJson), and the error-handling paths of
`write_shared.rs` (CrateInfo::read, write_rendered_cci).

Rust `String`s are modelled as `List Char` (sequences of unicode scalar
values); indices and lengths count scalar values, matching the byte-level
code on all inputs up to the monotone byte/char reindexing (UTF-8 byte
order agrees with scalar-value order, so `BTreeSet<String>` iteration
order is the lexicographic order on `List Char`).
-/

namespace Rustdoc

/-- A Rust `String`/`&str`: a sequence of unicode scalar values. -/
abbrev Str := List Char

/-- `sorted_template.rs`: trait `FileFormat` (the associated consts). -/
structure FileFormat where
  commentStart : Str
  commentEnd : Str
  separator : Str
deriving DecidableEq, Repr

/-- `sorted_template.rs`: `impl FileFormat for Html`. -/
def Html : FileFormat :=
  { commentStart := "<!--".data, commentEnd := "-->".data, separator := "".data }

/-- `sorted_template.rs`: `impl FileFormat for Js`. -/
def Js : FileFormat :=
  { commentStart := "//".data, commentEnd := "".data, separator := ",".data }

/-- Insertion into a strictly-ascending list: the model of
`BTreeSet<String>::insert`.  Keeps the list sorted and duplicate-free. -/
def btreeInsert (a : Str) : List Str → List Str
  | [] => [a]
  | b :: l =>
    if a = b then b :: l
    else if a < b then a :: b :: l
    else b :: btreeInsert a l

/-- Strictly ascending (the invariant of a `BTreeSet` iteration order). -/
def isAsc : List Str → Bool
  | [] => true
  | [_] => true
  | a :: b :: l => decide (a < b) && isAsc (b :: l)

/-- `sorted_template.rs`: `struct SortedTemplate<F>`; the `BTreeSet<String>`
field is modelled as its sorted, duplicate-free iteration list. -/
structure SortedTemplate where
  before : Str
  after : Str
  contents : List Str
deriving DecidableEq, Repr

/-- The `BTreeSet` representation invariant of a `SortedTemplate`. -/
abbrev Wf (t : SortedTemplate) : Prop := isAsc t.contents = true

/-- `SortedTemplate::before_after`. -/
def SortedTemplate.beforeAfter (before after : Str) : SortedTemplate :=
  { before := before, after := after, contents := [] }

/-- `SortedTemplate::append`: `self.contents.insert(insert)`. -/
def SortedTemplate.append (t : SortedTemplate) (insert : Str) : SortedTemplate :=
  { t with contents := btreeInsert insert t.contents }

/-- `sorted_template.rs`: `struct Offset`. -/
structure Offset where
  start : Nat
  delta : List Nat
deriving DecidableEq, Repr

/-- The decimal digit character for `d < 10`. -/
def digitChar (d : Nat) : Char := Char.ofNat (48 + d)

/-- Decimal digit test (`'0' ≤ c ≤ '9'`). -/
def isDigitCh (c : Char) : Bool := 48 ≤ c.toNat && c.toNat ≤ 57

/-- Fuelled decimal printer (any fuel > n computes the digits of `n`;
the recursion is structural on the fuel). -/
def natReprAux : Nat → Nat → Str
  | 0, _ => []
  | fuel + 1, n =>
    if n < 10 then [digitChar n]
    else natReprAux fuel (n / 10) ++ [digitChar (n % 10)]

/-- Decimal representation of a natural number (model of `serde_json`'s
integer printing for `usize`). -/
def natRepr (n : Nat) : Str := natReprAux (n + 1) n

/-- Value of a string of decimal digits. -/
def digitsVal (ds : Str) : Nat := ds.foldl (fun a c => 10 * a + (c.toNat - 48)) 0

/-- Parse a nonempty all-digit string as a natural number. -/
def parseNatStr (ds : Str) : Option Nat :=
  if ds ≠ [] ∧ ds.all isDigitCh then some (digitsVal ds) else none

/-- Join with a separator (used for the `delta` array elements). -/
def joinSep (sep : Str) : List Str → Str
  | [] => []
  | [x] => x
  | x :: xs => x ++ sep ++ joinSep sep xs

/-- `serde_json::to_string(&Offset { start, delta })`. -/
def encodeOffset (o : Offset) : Str :=
  "\x7b\"start\":".data ++ natRepr o.start ++ ",\"delta\":[".data ++
    joinSep [','] (o.delta.map natRepr) ++ "]\x7d".data

/-- Rust `str::strip_prefix`. -/
def stripPre (p s : Str) : Option Str :=
  if s.take p.length = p then some (s.drop p.length) else none

/-- Rust `str::strip_suffix`. -/
def stripSuf (p s : Str) : Option Str :=
  if p.length ≤ s.length ∧ s.drop (s.length - p.length) = p then
    some (s.take (s.length - p.length))
  else none

/-- Parse every group as a natural number, failing if any group fails. -/
def parseNatList : List Str → Option (List Nat)
  | [] => some []
  | g :: gs =>
    match parseNatStr g, parseNatList gs with
    | some n, some ns => some (n :: ns)
    | _, _ => none

/-- Split a string at every comma. -/
def splitComma : Str → List Str
  | [] => [[]]
  | c :: rest =>
    match splitComma rest with
    | [] => [[]]
    | g :: gs => if c = ',' then [] :: g :: gs else (c :: g) :: gs

/-- `serde_json::from_str::<Offset>`: a total decoder accepting (at least)
everything `encodeOffset` produces, rejecting everything else it sees. -/
def decodeOffset (s : Str) : Option Offset :=
  match stripPre "\x7b\"start\":".data s with
  | none => none
  | some s1 =>
    match parseNatStr (s1.takeWhile isDigitCh) with
    | none => none
    | some start =>
      match stripPre ",\"delta\":[".data (s1.dropWhile isDigitCh) with
      | none => none
      | some s2 =>
        match stripSuf "]\x7d".data s2 with
        | none => none
        | some inner =>
          if inner = [] then some { start := start, delta := [] }
          else
            match parseNatList (splitComma inner) with
            | none => none
            | some delta => some { start := start, delta := delta }

/-- Rust `str::rsplit_once('\n')`: split at the last newline. -/
def rsplitNl (s : Str) : Option (Str × Str) :=
  let tail := (s.reverse.takeWhile (fun c => c != '\n')).reverse
  if tail.length = s.length then none
  else some (s.take (s.length - tail.length - 1), tail)

/-- `sorted_template.rs`: `checked_split_at` — `is_char_boundary` guarded
`split_at`.  In the scalar-value model every index ≤ length is a boundary. -/
def checkedSplitAt (s : Str) (index : Nat) : Option (Str × Str) :=
  if index ≤ s.length then some (s.take index, s.drop index) else none

/-- The fragment-emission loop of `impl Display for SortedTemplate`:
returns the emitted text and the `delta` vector.  `sep` is the separator
state (empty before the first fragment, `F::SEPARATOR` afterwards). -/
def renderBody (fsep : Str) : Str → List Str → Str × List Nat
  | _, [] => ([], [])
  | sep, c :: cs =>
    let rest := renderBody fsep fsep cs
    (sep ++ c ++ rest.1, (sep.length + c.length) :: rest.2)

/-- `impl fmt::Display for SortedTemplate` — the rendered output. -/
def render (F : FileFormat) (t : SortedTemplate) : Str :=
  let body := renderBody F.separator [] t.contents
  t.before ++ body.1 ++ t.after ++ '\n' ::
    (F.commentStart ++
      encodeOffset { start := t.before.length, delta := body.2 } ++
      F.commentEnd)

/-- The fragment-consumption loop of `impl FromStr for SortedTemplate`:
cuts one fragment per delta, strips the expected separator from each
fragment after the first, returns the fragments (in cut order) and the
remaining text (the suffix). -/
def parseFrags (F : FileFormat) : Str → List Nat → Str → Option (List Str × Str)
  | _, [], s => some ([], s)
  | sep, index :: ds, s =>
    match checkedSplitAt s index with
    | none => none
    | some (content, rest) =>
      match stripPre sep content with
      | none => none
      | some content2 =>
        match parseFrags F F.separator ds rest with
        | none => none
        | some (cs, after) => some (content2 :: cs, after)

/-- `impl FromStr for SortedTemplate`. -/
def parse (F : FileFormat) (s : Str) : Option SortedTemplate :=
  match rsplitNl s with
  | none => none
  | some (s1, offsetLine) =>
    match stripPre F.commentStart offsetLine with
    | none => none
    | some o1 =>
      match stripSuf F.commentEnd o1 with
      | none => none
      | some o2 =>
        match decodeOffset o2 with
        | none => none
        | some off =>
          match checkedSplitAt s1 off.start with
          | none => none
          | some (before, s2) =>
            match parseFrags F [] off.delta s2 with
            | none => none
            | some (frags, after) =>
              some { before := before, after := after,
                     contents := frags.foldl (fun acc c => btreeInsert c acc) [] }

/-- Rust `str::split` on a nonempty pattern (greedy, leftmost,
non-overlapping), fuelled by the string length (structural recursion). -/
def splitOnAux (marker : Str) : Nat → Str → List Str
  | 0, s => [s]
  | _ + 1, [] => [[]]
  | fuel + 1, c :: rest =>
    match stripPre marker (c :: rest) with
    | some r => [] :: splitOnAux marker fuel r
    | none =>
      match splitOnAux marker fuel rest with
      | [] => [[]]
      | g :: gs => (c :: g) :: gs

/-- Rust `str::split(marker)` collected to a list.  An empty pattern
matches at every char boundary, giving `["", each char…, ""]`. -/
def splitOn (marker s : Str) : List Str :=
  match marker with
  | [] => [[]] ++ s.map (fun c => [c]) ++ [[]]
  | _ :: _ => splitOnAux marker s.length s

/-- `SortedTemplate::magic`: split on the marker, succeed only when the
split yields exactly a before-piece and an after-piece. -/
def magic (template marker : Str) : Option SortedTemplate :=
  match splitOn marker template with
  | [b, a] => some { before := b, after := a, contents := [] }
  | _ => none

/-- Greedy left-to-right non-overlapping occurrence counter for a
nonempty pattern, fuelled by the string length. -/
def occGAux (marker : Str) : Nat → Str → Nat
  | 0, _ => 0
  | _ + 1, [] => 0
  | fuel + 1, c :: rest =>
    match stripPre marker (c :: rest) with
    | some r => occGAux marker fuel r + 1
    | none => occGAux marker fuel rest

/-- Number of occurrences of `marker` found by a greedy left-to-right
non-overlapping scan (the occurrences `str::split` separates on). -/
def occG (marker s : Str) : Nat :=
  match marker with
  | [] => s.length + 1
  | _ :: _ => occGAux marker s.length s

/-- Modelled from the spec's words (for comparison with the code): the
number of positions at which `marker` occurs as a substring of `s`. -/
def countOcc (marker s : Str) : Nat :=
  ((List.range (s.length + 1)).filter
    (fun i => decide (i + marker.length ≤ s.length ∧
      (s.drop i).take marker.length = marker))).length

/-- `sorted_json.rs`: `struct SortedJson(String)` — prerendered JSON. -/
structure SortedJson where
  val : Str
deriving DecidableEq, Repr

/-- Lowercase hexadecimal digit for `d < 16`. -/
def hexDigit (d : Nat) : Char := if d < 10 then digitChar d else Char.ofNat (87 + d)

/-- One character of `serde_json`'s string escaping. -/
def escapeJsonChar (c : Char) : Str :=
  if c = '"' then ['\\', '"']
  else if c = '\\' then ['\\', '\\']
  else if c.toNat < 32 then
    if c = '\x08' then ['\\', 'b']
    else if c = '\t' then ['\\', 't']
    else if c = '\n' then ['\\', 'n']
    else if c = '\x0c' then ['\\', 'f']
    else if c = '\r' then ['\\', 'r']
    else ['\\', 'u', '0', '0', hexDigit (c.toNat / 16), hexDigit (c.toNat % 16)]
  else [c]

/-- `serde_json` string serialization (quote and escape). -/
def jsonQuote (s : Str) : Str := '"' :: (s.map escapeJsonChar).flatten ++ ['"']

/-- `SortedJson::serialize` applied to a string value. -/
def SortedJson.serializeStr (s : Str) : SortedJson := ⟨jsonQuote s⟩

/-- `SortedJson::serialize` applied to an unsigned integer value. -/
def SortedJson.serializeNat (n : Nat) : SortedJson := ⟨natRepr n⟩

/-- `SortedJson::preserialized`. -/
def SortedJson.preserialized (s : Str) : SortedJson := ⟨s⟩

/-- The comparator `|a, b| a.cmp(b)` of `SortedJson::array`, as the `≤`
relation an insertion sort keeps (Rust's slice sort is insertion sort on
short slices; on ties both keep input order). -/
def sjLe (a b : SortedJson) : Prop := a.val ≤ b.val

instance : DecidableRel sjLe := fun a b => inferInstanceAs (Decidable (a.val ≤ b.val))

/-- The key comparator `|a, b| a.0.cmp(&b.0)` of `SortedJson::object`. -/
def sjKeyLe (a b : SortedJson × SortedJson) : Prop := a.1.val ≤ b.1.val

instance : DecidableRel sjKeyLe := fun a b => inferInstanceAs (Decidable (a.1.val ≤ b.1.val))

/-- `SortedJson::array`: sort by the serialized fragment, comma-join,
bracket-wrap. -/
def SortedJson.array (items : List SortedJson) : SortedJson :=
  ⟨'[' :: joinSep ",".data ((List.insertionSort sjLe items).map SortedJson.val) ++ [']']⟩

/-- `SortedJson::array_unsorted`: comma-join, bracket-wrap, caller order. -/
def SortedJson.arrayUnsorted (items : List SortedJson) : SortedJson :=
  ⟨'[' :: joinSep ",".data (items.map SortedJson.val) ++ [']']⟩

/-- `SortedJson::object`: sort pairs by serialized key, render `k:v`
pairs comma-joined and brace-wrapped. -/
def SortedJson.object (items : List (SortedJson × SortedJson)) : SortedJson :=
  ⟨'\x7b' :: joinSep ",".data
      ((List.insertionSort sjKeyLe items).map (fun kv => kv.1.val ++ ':' :: kv.2.val)) ++
    ['\x7d']⟩

/-- An error of `write_shared.rs` carrying the offending path
(`Error::new(e, &path)` / `try_err!(…, &path)`). -/
structure PathError where
  path : Str
deriving DecidableEq, Repr

/-- Outcome of `fs::read_to_string` at one path. -/
inductive ReadResult where
  | found (s : Str)
  | notFound
  | otherErr
deriving DecidableEq, Repr

/-- `write_rendered_cci`, the per-path template initialisation (the
`Entry::Vacant` arm): read-or-blank under `read_rendered_cci`, always
blank otherwise. -/
def initialTemplate (F : FileFormat) (readRenderedCci : Bool) (path : Str)
    (onDisk : ReadResult) (blank : SortedTemplate) : Except PathError SortedTemplate :=
  if readRenderedCci then
    match onDisk with
    | .found s =>
      match parse F s with
      | some t => .ok t
      | none => .error { path := path }
    | .notFound => .ok blank
    | .otherErr => .error { path := path }
  else .ok blank

/-- `CrateInfo::read`: read and decode every record file, short-circuit
on the first unreadable or undecodable one, tagging its path. -/
def readAllRecords {CI : Type} (fsRead : Str → Option Str) (decode : Str → Option CI) :
    List Str → Except PathError (List CI)
  | [] => .ok []
  | p :: ps =>
    match fsRead p with
    | none => .error { path := p }
    | some content =>
      match decode content with
      | none => .error { path := p }
      | some ci =>
        match readAllRecords fsRead decode ps with
        | .error e => .error e
        | .ok rest => .ok (ci :: rest)

theorem mem_btreeInsert (x a : Str) (l : List Str) :
    x ∈ btreeInsert a l ↔ x = a ∨ x ∈ l := by
  induction l with
  | nil => simp [btreeInsert]
  | cons b l ih =>
    simp only [btreeInsert]
    split_ifs with h1 h2
    · subst h1; simp [List.mem_cons]
    · simp [List.mem_cons]
    · simp [List.mem_cons, ih]; tauto

theorem btreeInsert_comm_lt {a b : Str} (hab : a < b) (l : List Str) :
    btreeInsert a (btreeInsert b l) = btreeInsert b (btreeInsert a l) := by
  induction l with
  | nil => simp [btreeInsert, hab, hab.ne, hab.ne', lt_asymm hab]
  | cons c l ih =>
    rcases eq_or_ne a c with rfl | hac
    · simp [btreeInsert, hab, hab.ne, hab.ne', lt_asymm hab]
    · rcases eq_or_ne b c with rfl | hbc
      · simp [btreeInsert, hab, hab.ne, hab.ne', lt_asymm hab]
      · rcases lt_or_gt_of_ne hac with hac2 | hac2
        · rcases lt_or_gt_of_ne hbc with hbc2 | hbc2
          · simp [btreeInsert, hab, hab.ne, hab.ne', lt_asymm hab, hac, hac2, hbc, hbc2]
          · simp [btreeInsert, hab, hab.ne, hab.ne', lt_asymm hab, hac, hac2,
              hbc2.ne', lt_asymm hbc2]
        · have hcb : c < b := lt_trans hac2 hab
          simp [btreeInsert, hac2.ne', lt_asymm hac2, hcb.ne', lt_asymm hcb, ih]

theorem btreeInsert_comm (a b : Str) (l : List Str) :
    btreeInsert a (btreeInsert b l) = btreeInsert b (btreeInsert a l) := by
  rcases lt_trichotomy a b with h | rfl | h
  · exact btreeInsert_comm_lt h l
  · rfl
  · exact (btreeInsert_comm_lt h l).symm

theorem btreeInsert_idem (a : Str) (l : List Str) :
    btreeInsert a (btreeInsert a l) = btreeInsert a l := by
  induction l with
  | nil => simp [btreeInsert]
  | cons b l ih =>
    simp only [btreeInsert]
    split_ifs with h1 h2
    · simp [btreeInsert, h1]
    · simp [btreeInsert, h1, h2]
    · simp [btreeInsert, h1, h2, ih]

theorem pairwise_btreeInsert {a : Str} {l : List Str} (hp : l.Pairwise (· < ·)) :
    (btreeInsert a l).Pairwise (· < ·) := by
  induction l with
  | nil => simp [btreeInsert]
  | cons b l ih =>
    rcases List.pairwise_cons.1 hp with ⟨hb, hl⟩
    simp only [btreeInsert]
    split_ifs with h1 h2
    · exact hp
    · refine List.pairwise_cons.2 ⟨?_, hp⟩
      intro x hx
      rcases List.mem_cons.1 hx with rfl | hx
      · exact h2
      · exact lt_trans h2 (hb x hx)
    · have hba : b < a := by
        rcases lt_trichotomy a b with h | h | h
        · exact absurd h h2
        · exact absurd h h1
        · exact h
      refine List.pairwise_cons.2 ⟨?_, ih hl⟩
      intro x hx
      rcases (mem_btreeInsert x a l).1 hx with rfl | hx
      · exact hba
      · exact hb x hx

theorem btreeInsert_of_mem {a : Str} {l : List Str} (hp : l.Pairwise (· < ·))
    (hm : a ∈ l) : btreeInsert a l = l := by
  induction l with
  | nil => cases hm
  | cons b l ih =>
    rcases List.pairwise_cons.1 hp with ⟨hb, hl⟩
    rcases List.mem_cons.1 hm with rfl | hm
    · simp [btreeInsert]
    · have hba : b < a := hb a hm
      simp only [btreeInsert]
      rw [if_neg (ne_of_gt hba), if_neg (lt_asymm hba), ih hl hm]

theorem btreeInsert_of_forall_lt {a : Str} {l : List Str} (h : ∀ b ∈ l, b < a) :
    btreeInsert a l = l ++ [a] := by
  induction l with
  | nil => simp [btreeInsert]
  | cons b l ih =>
    have hba : b < a := h b (by simp)
    simp only [btreeInsert, List.cons_append]
    rw [if_neg (ne_of_gt hba), if_neg (lt_asymm hba),
      ih (fun x hx => h x (by simp [hx]))]

theorem foldl_btreeInsert (l : List Str) : ∀ acc : List Str,
    (acc ++ l).Pairwise (· < ·) →
    l.foldl (fun acc c => btreeInsert c acc) acc = acc ++ l := by
  induction l with
  | nil => intro acc _; simp
  | cons c l ih =>
    intro acc hp
    have h1 : ∀ b ∈ acc, b < c := by
      intro b hb
      exact (List.pairwise_append.1 hp).2.2 b hb c (by simp)
    simp only [List.foldl_cons]
    rw [btreeInsert_of_forall_lt h1, ih (acc ++ [c]) (by simpa using hp)]
    simp

theorem isAsc_iff_pairwise : ∀ l : List Str, isAsc l = true ↔ l.Pairwise (· < ·)
  | [] => by simp [isAsc]
  | [a] => by simp [isAsc]
  | a :: b :: l => by
    have ih := isAsc_iff_pairwise (b :: l)
    simp only [isAsc, Bool.and_eq_true, decide_eq_true_eq, ih]
    constructor
    · rintro ⟨hab, hbl⟩
      rcases List.pairwise_cons.1 hbl with ⟨hb, _⟩
      refine List.pairwise_cons.2 ⟨?_, hbl⟩
      intro x hx
      rcases List.mem_cons.1 hx with rfl | hx
      · exact hab
      · exact lt_trans hab (hb x hx)
    · intro h
      rcases List.pairwise_cons.1 h with ⟨ha, hbl⟩
      exact ⟨ha b (by simp), hbl⟩

theorem digitChar_isDigit {d : Nat} (h : d < 10) : isDigitCh (digitChar d) = true := by
  interval_cases d <;> decide

theorem digitChar_toNat {d : Nat} (h : d < 10) : (digitChar d).toNat = 48 + d := by
  interval_cases d <;> decide

theorem isDigitCh_ne_comma {c : Char} (h : isDigitCh c = true) : c ≠ ',' := by
  intro hc; rw [hc] at h; exact absurd h (by decide)

theorem isDigitCh_ne_nl {c : Char} (h : isDigitCh c = true) : c ≠ '\n' := by
  intro hc; rw [hc] at h; exact absurd h (by decide)

theorem natReprAux_spec : ∀ fuel n, n < fuel →
    natReprAux fuel n ≠ [] ∧ (∀ c ∈ natReprAux fuel n, isDigitCh c = true) ∧
      digitsVal (natReprAux fuel n) = n := by
  intro fuel
  induction fuel with
  | zero => intro n h; exact absurd h (Nat.not_lt_zero n)
  | succ fuel ih =>
    intro n hn
    by_cases h10 : n < 10
    · refine ⟨by simp [natReprAux, h10], ?_, ?_⟩
      · intro c hc
        simp only [natReprAux, if_pos h10, List.mem_singleton] at hc
        subst hc
        exact digitChar_isDigit h10
      · simp only [natReprAux, if_pos h10, digitsVal, List.foldl_cons, List.foldl_nil]
        rw [digitChar_toNat h10]
        omega
    · have hrec : n / 10 < fuel := by
        have h1 : n / 10 < n := Nat.div_lt_self (by omega) (by omega)
        omega
      obtain ⟨hne, hdig, hval⟩ := ih (n / 10) hrec
      simp only [natReprAux, if_neg h10]
      refine ⟨by simp, ?_, ?_⟩
      · intro c hc
        rcases List.mem_append.1 hc with hc | hc
        · exact hdig c hc
        · rw [List.mem_singleton.1 hc]
          exact digitChar_isDigit (Nat.mod_lt n (by omega))
      · unfold digitsVal at hval ⊢
        rw [List.foldl_append, hval]
        simp only [List.foldl_cons, List.foldl_nil]
        rw [digitChar_toNat (Nat.mod_lt n (by omega))]
        omega

theorem natRepr_ne_nil (n : Nat) : natRepr n ≠ [] :=
  (natReprAux_spec (n + 1) n (by omega)).1

theorem natRepr_digits (n : Nat) : ∀ c ∈ natRepr n, isDigitCh c = true :=
  (natReprAux_spec (n + 1) n (by omega)).2.1

theorem digitsVal_natRepr (n : Nat) : digitsVal (natRepr n) = n :=
  (natReprAux_spec (n + 1) n (by omega)).2.2

theorem parseNatStr_natRepr (n : Nat) : parseNatStr (natRepr n) = some n := by
  unfold parseNatStr
  rw [if_pos, digitsVal_natRepr]
  exact ⟨natRepr_ne_nil n, List.all_eq_true.2 (natRepr_digits n)⟩

theorem stripPre_append (p r : Str) : stripPre p (p ++ r) = some r := by
  simp [stripPre, List.take_left, List.drop_left]

theorem stripPre_eq_some {p s r : Str} (h : stripPre p s = some r) : s = p ++ r := by
  unfold stripPre at h
  split_ifs at h with hc
  · calc s = s.take p.length ++ s.drop p.length := (List.take_append_drop _ _).symm
      _ = p ++ r := by rw [hc, Option.some.inj h]

theorem stripSuf_append (p r : Str) : stripSuf p (r ++ p) = some r := by
  have hl : (r ++ p).length - p.length = r.length := by simp
  unfold stripSuf
  rw [if_pos]
  · rw [hl, List.take_left]
  · exact ⟨by simp, by rw [hl, List.drop_left]⟩

theorem stripSuf_eq_some {p s r : Str} (h : stripSuf p s = some r) : s = r ++ p := by
  unfold stripSuf at h
  split_ifs at h with hc
  · calc s = s.take (s.length - p.length) ++ s.drop (s.length - p.length) :=
        (List.take_append_drop _ _).symm
      _ = r ++ p := by rw [hc.2, Option.some.inj h]

theorem takeWhile_append_cons {p : Char → Bool} {l₁ : Str} (h : ∀ c ∈ l₁, p c = true)
    {c : Char} (hc : p c = false) (l₂ : Str) :
    (l₁ ++ c :: l₂).takeWhile p = l₁ ∧ (l₁ ++ c :: l₂).dropWhile p = c :: l₂ := by
  induction l₁ with
  | nil => constructor <;> simp [List.takeWhile_cons, List.dropWhile_cons, hc]
  | cons a l ih =>
    have ha : p a = true := h a (by simp)
    have ih2 := ih (fun x hx => h x (List.mem_cons_of_mem a hx))
    constructor <;>
      simp [List.takeWhile_cons, List.dropWhile_cons, ha, ih2.1, ih2.2]

theorem takeWhile_eq_self {p : Char → Bool} : ∀ {s : Str}, (∀ c ∈ s, p c = true) →
    s.takeWhile p = s
  | [], _ => rfl
  | a :: l, h => by
    have ha : p a = true := h a (by simp)
    have ih := takeWhile_eq_self (s := l) (fun x hx => h x (List.mem_cons_of_mem a hx))
    simp [List.takeWhile_cons, ha, ih]

theorem rsplitNl_append {head tail : Str} (h : '\n' ∉ tail) :
    rsplitNl (head ++ '\n' :: tail) = some (head, tail) := by
  have hall : ∀ c ∈ tail.reverse, (c != '\n') = true := by
    intro c hc
    exact bne_iff_ne.2 (fun hne => h (hne ▸ List.mem_reverse.1 hc))
  have htw : ((head ++ '\n' :: tail).reverse.takeWhile (fun c => c != '\n')).reverse = tail := by
    rw [show (head ++ '\n' :: tail).reverse = tail.reverse ++ '\n' :: head.reverse by simp]
    rw [(takeWhile_append_cons hall (by simp) head.reverse).1, List.reverse_reverse]
  have hlen : (head ++ '\n' :: tail).length = head.length + tail.length + 1 := by
    simp [List.length_append]; omega
  have harith : (head ++ '\n' :: tail).length - tail.length - 1 = head.length := by
    rw [hlen]; omega
  simp only [rsplitNl]
  rw [htw, if_neg (by rw [hlen]; omega), harith, List.take_left]

theorem rsplitNl_of_no_nl {s : Str} (h : '\n' ∉ s) : rsplitNl s = none := by
  have hall : ∀ c ∈ s.reverse, (c != '\n') = true := by
    intro c hc
    exact bne_iff_ne.2 (fun hne => h (hne ▸ List.mem_reverse.1 hc))
  simp only [rsplitNl]
  rw [takeWhile_eq_self hall, List.reverse_reverse, if_pos rfl]

theorem mem_joinSep {c : Char} {sep : Str} : ∀ {gs : List Str}, c ∈ joinSep sep gs →
    c ∈ sep ∨ ∃ g ∈ gs, c ∈ g
  | [], h => by cases h
  | [x], h => Or.inr ⟨x, by simp, h⟩
  | x :: y :: gs, h => by
    rcases List.mem_append.1 h with h1 | h1
    · rcases List.mem_append.1 h1 with h2 | h2
      · exact Or.inr ⟨x, by simp, h2⟩
      · exact Or.inl h2
    · rcases mem_joinSep h1 with h2 | ⟨g, hg, hcg⟩
      · exact Or.inl h2
      · exact Or.inr ⟨g, List.mem_cons_of_mem x hg, hcg⟩

theorem joinSep_ne_nil {sep : Str} : ∀ {gs : List Str}, gs ≠ [] → (∀ g ∈ gs, g ≠ []) →
    joinSep sep gs ≠ []
  | [], h, _ => absurd rfl h
  | [x], _, hne => by simpa [joinSep] using hne x (by simp)
  | x :: y :: gs, _, hne => by
    have hx : x ≠ [] := hne x (by simp)
    simp only [joinSep]
    intro hcon
    rcases List.append_eq_nil.1 hcon with ⟨h1, _⟩
    rcases List.append_eq_nil.1 h1 with ⟨h2, _⟩
    exact hx h2

theorem splitComma_ne_nil : ∀ s : Str, splitComma s ≠ []
  | [] => by simp [splitComma]
  | c :: rest => by
    simp only [splitComma]
    rcases hr : splitComma rest with _ | ⟨g, gs⟩
    · simp
    · split_ifs <;> simp

theorem splitComma_no_comma : ∀ {g : Str}, ',' ∉ g → splitComma g = [g]
  | [], _ => rfl
  | c :: rest, h => by
    have hc : c ≠ ',' := fun hcc => h (hcc ▸ List.mem_cons_self c rest)
    have ih := splitComma_no_comma (fun hm => h (List.mem_cons_of_mem c hm))
    simp [splitComma, ih, hc]

theorem splitComma_append : ∀ {x : Str}, ',' ∉ x → ∀ rest : Str,
    splitComma (x ++ ',' :: rest) = x :: splitComma rest
  | [], _, rest => by
    simp only [List.nil_append, splitComma]
    rcases hr : splitComma rest with _ | ⟨g, gs⟩
    · exact absurd hr (splitComma_ne_nil rest)
    · simp
  | c :: x, h, rest => by
    have hc : c ≠ ',' := fun hcc => h (hcc ▸ List.mem_cons_self c x)
    have ih := splitComma_append (fun hm => h (List.mem_cons_of_mem c hm)) rest
    simp only [List.cons_append, splitComma, ih]
    simp [hc]
    rw [ih]

theorem splitComma_joinSep : ∀ gs : List Str, gs ≠ [] → (∀ g ∈ gs, ',' ∉ g) →
    splitComma (joinSep [','] gs) = gs
  | [], h, _ => absurd rfl h
  | [x], _, hnc => by
    simp only [joinSep]
    exact splitComma_no_comma (hnc x (by simp))
  | x :: y :: gs, _, hnc => by
    have ih := splitComma_joinSep (y :: gs) (by simp)
      (fun g hg => hnc g (List.mem_cons_of_mem x hg))
    simp only [joinSep, List.append_assoc, List.singleton_append]
    rw [splitComma_append (hnc x (by simp)), ih]

theorem parseNatList_natRepr : ∀ delta : List Nat,
    parseNatList (delta.map natRepr) = some delta
  | [] => rfl
  | d :: ds => by
    simp only [List.map_cons, parseNatList, parseNatStr_natRepr, parseNatList_natRepr ds]

theorem natRepr_no_comma (n : Nat) : ',' ∉ natRepr n := by
  intro h
  exact isDigitCh_ne_comma (natRepr_digits n ',' h) rfl

theorem decodeOffset_encodeOffset (o : Offset) : decodeOffset (encodeOffset o) = some o := by
  obtain ⟨start, delta⟩ := o
  have e1 : encodeOffset ⟨start, delta⟩ =
      "\x7b\"start\":".data ++ (natRepr start ++ (',' :: ("\"delta\":[".data ++
        (joinSep [','] (delta.map natRepr) ++ "]\x7d".data)))) := by
    simp [encodeOffset, List.append_assoc]
  have htw := takeWhile_append_cons (natRepr_digits start) (c := ',') (by decide)
    ("\"delta\":[".data ++ (joinSep [','] (delta.map natRepr) ++ "]\x7d".data))
  rw [e1]
  simp only [decodeOffset, stripPre_append, htw.1, htw.2, parseNatStr_natRepr]
  rw [show (',' :: ("\"delta\":[".data ++ (joinSep [','] (delta.map natRepr) ++
    "]\x7d".data))) = ",\"delta\":[".data ++ (joinSep [','] (delta.map natRepr) ++
    "]\x7d".data) from rfl]
  simp only [stripPre_append, stripSuf_append]
  rcases hd : delta with _ | ⟨d, ds⟩
  · simp [joinSep]
  · have hne : joinSep [','] ((d :: ds).map natRepr) ≠ [] := by
      apply joinSep_ne_nil (by simp)
      intro g hg
      rcases List.mem_map.1 hg with ⟨m, _, rfl⟩
      exact natRepr_ne_nil m
    rw [if_neg hne]
    rw [splitComma_joinSep ((d :: ds).map natRepr) (by simp) ?_]
    · rw [parseNatList_natRepr]
    · intro g hg
      rcases List.mem_map.1 hg with ⟨m, _, rfl⟩
      exact natRepr_no_comma m

theorem checkedSplitAt_append (a b : Str) :
    checkedSplitAt (a ++ b) a.length = some (a, b) := by
  simp [checkedSplitAt, List.take_left, List.drop_left]

theorem parseFrags_renderBody (F : FileFormat) : ∀ (cs : List Str) (sep after : Str),
    parseFrags F sep (renderBody F.separator sep cs).2
      ((renderBody F.separator sep cs).1 ++ after) = some (cs, after) := by
  intro cs
  induction cs with
  | nil => intro sep after; simp [renderBody, parseFrags]
  | cons c cs ih =>
    intro sep after
    have hsplit := checkedSplitAt_append (sep ++ c)
      ((renderBody F.separator F.separator cs).1 ++ after)
    rw [List.length_append, List.append_assoc] at hsplit
    simp only [renderBody, parseFrags, List.append_assoc, hsplit,
      stripPre_append, ih]

theorem noNl_encodeOffset (o : Offset) : ∀ c ∈ encodeOffset o, c ≠ '\n' := by
  intro c hc
  unfold encodeOffset at hc
  have htag1 : ∀ c ∈ "\x7b\"start\":".data, c ≠ '\n' := by decide
  have htag2 : ∀ c ∈ ",\"delta\":[".data, c ≠ '\n' := by decide
  have htag3 : ∀ c ∈ "]\x7d".data, c ≠ '\n' := by decide
  rcases List.mem_append.1 hc with h1 | h1
  · rcases List.mem_append.1 h1 with h2 | h2
    · rcases List.mem_append.1 h2 with h3 | h3
      · rcases List.mem_append.1 h3 with h4 | h4
        · exact htag1 c h4
        · exact isDigitCh_ne_nl (natRepr_digits _ c h4)
      · exact htag2 c h3
    · rcases mem_joinSep h2 with h3 | ⟨g, hg, hcg⟩
      · rcases List.mem_singleton.1 h3 with rfl
        decide
      · rcases List.mem_map.1 hg with ⟨m, _, rfl⟩
        exact isDigitCh_ne_nl (natRepr_digits m c hcg)
  · exact htag3 c h1

/-- Neither comment delimiter contains a newline (true of both built-in
formats; required for the rendered locator line to stay one line). -/
abbrev NoNlFmt (F : FileFormat) : Prop :=
  (∀ c ∈ F.commentStart, c ≠ '\n') ∧ (∀ c ∈ F.commentEnd, c ≠ '\n')

theorem parse_render {F : FileFormat} {t : SortedTemplate} (hF : NoNlFmt F) (ht : Wf t) :
    parse F (render F t) = some t := by
  obtain ⟨before, after, contents⟩ := t
  have hpw : contents.Pairwise (· < ·) := (isAsc_iff_pairwise contents).1 ht
  have hnl : '\n' ∉ F.commentStart ++
      (encodeOffset ⟨before.length, (renderBody F.separator [] contents).2⟩ ++
        F.commentEnd) := by
    intro hmem
    rcases List.mem_append.1 hmem with h1 | h1
    · exact hF.1 '\n' h1 rfl
    · rcases List.mem_append.1 h1 with h2 | h2
      · exact noNl_encodeOffset _ '\n' h2 rfl
      · exact hF.2 '\n' h2 rfl
  have hrender : render F ⟨before, after, contents⟩ =
      (before ++ ((renderBody F.separator [] contents).1 ++ after)) ++ '\n' ::
        (F.commentStart ++
          (encodeOffset ⟨before.length, (renderBody F.separator [] contents).2⟩ ++
            F.commentEnd)) := by
    simp [render, List.append_assoc]
  rw [hrender]
  simp only [parse, rsplitNl_append hnl, stripPre_append, stripSuf_append,
    decodeOffset_encodeOffset, checkedSplitAt_append, parseFrags_renderBody,
    Option.some.injEq]
  rw [foldl_btreeInsert contents [] (by simpa using hpw)]
  simp

theorem sj_val_inj {a b : SortedJson} (h : a.val = b.val) : a = b := by
  cases a; cases b; exact congrArg SortedJson.mk h

instance : IsTotal SortedJson sjLe := ⟨fun a b => le_total a.val b.val⟩

instance : IsTrans SortedJson sjLe := ⟨fun _ _ _ h1 h2 => le_trans h1 h2⟩

instance : IsAntisymm SortedJson sjLe :=
  ⟨fun a b h1 h2 => by cases a; cases b; exact congrArg SortedJson.mk (le_antisymm h1 h2)⟩

instance : IsTotal (SortedJson × SortedJson) sjKeyLe := ⟨fun a b => le_total a.1.val b.1.val⟩

instance : IsTrans (SortedJson × SortedJson) sjKeyLe := ⟨fun _ _ _ h1 h2 => le_trans h1 h2⟩

/-- Strict version of the object key comparison. -/
def sjKeyLt (a b : SortedJson × SortedJson) : Prop := a.1.val < b.1.val

instance : IsAntisymm (SortedJson × SortedJson) sjKeyLt :=
  ⟨fun _ _ h1 h2 => absurd (lt_trans h1 h2) (lt_irrefl _)⟩

theorem array_perm {l1 l2 : List SortedJson} (h : l1.Perm l2) :
    SortedJson.array l1 = SortedJson.array l2 := by
  have hperm : (List.insertionSort sjLe l1).Perm (List.insertionSort sjLe l2) :=
    (List.perm_insertionSort sjLe l1).trans (h.trans (List.perm_insertionSort sjLe l2).symm)
  have heq : List.insertionSort sjLe l1 = List.insertionSort sjLe l2 :=
    List.eq_of_perm_of_sorted hperm (List.sorted_insertionSort sjLe l1)
      (List.sorted_insertionSort sjLe l2)
  unfold SortedJson.array
  rw [heq]

theorem object_perm {l1 l2 : List (SortedJson × SortedJson)} (h : l1.Perm l2)
    (hnd : (l1.map (fun kv => kv.1)).Nodup) :
    SortedJson.object l1 = SortedJson.object l2 := by
  have hperm : (List.insertionSort sjKeyLe l1).Perm (List.insertionSort sjKeyLe l2) :=
    (List.perm_insertionSort sjKeyLe l1).trans
      (h.trans (List.perm_insertionSort sjKeyLe l2).symm)
  have hkey : ∀ l : List (SortedJson × SortedJson), l.Perm l1 →
      List.Pairwise sjKeyLe l → List.Pairwise sjKeyLt l := by
    intro l hl hle
    have hndl : (l.map (fun kv => kv.1)).Nodup := ((hl.map _).nodup_iff).2 hnd
    have hne : List.Pairwise (fun a b : SortedJson × SortedJson => a.1 ≠ b.1) l :=
      List.pairwise_map.1 hndl
    refine (hle.and hne).imp ?_
    rintro a b ⟨h1, h2⟩
    exact lt_of_le_of_ne h1 (fun hv => h2 (sj_val_inj hv))
  have hs1 : List.Pairwise sjKeyLt (List.insertionSort sjKeyLe l1) :=
    hkey _ (List.perm_insertionSort sjKeyLe l1) (List.sorted_insertionSort sjKeyLe l1)
  have hs2 : List.Pairwise sjKeyLt (List.insertionSort sjKeyLe l2) :=
    hkey _ ((List.perm_insertionSort sjKeyLe l2).trans h.symm)
      (List.sorted_insertionSort sjKeyLe l2)
  have heq : List.insertionSort sjKeyLe l1 = List.insertionSort sjKeyLe l2 :=
    List.eq_of_perm_of_sorted hperm hs1 hs2
  unfold SortedJson.object
  rw [heq]

theorem splitOnAux_ne_nil (m : Str) : ∀ fuel s, splitOnAux m fuel s ≠ [] := by
  intro fuel
  induction fuel with
  | zero => intro s; simp [splitOnAux]
  | succ fuel ih =>
    intro s
    rcases s with _ | ⟨c, rest⟩
    · simp [splitOnAux]
    · simp only [splitOnAux]
      rcases stripPre m (c :: rest) with _ | r
      · rcases hr : splitOnAux m fuel rest with _ | ⟨g, gs⟩ <;> simp
      · simp

theorem splitOnAux_length (m : Str) : ∀ fuel s,
    (splitOnAux m fuel s).length = occGAux m fuel s + 1 := by
  intro fuel
  induction fuel with
  | zero => intro s; simp [splitOnAux, occGAux]
  | succ fuel ih =>
    intro s
    rcases s with _ | ⟨c, rest⟩
    · simp [splitOnAux, occGAux]
    · simp only [splitOnAux, occGAux]
      rcases stripPre m (c :: rest) with _ | r
      · rcases hr : splitOnAux m fuel rest with _ | ⟨g, gs⟩
        · exact absurd hr (splitOnAux_ne_nil m fuel rest)
        · have := ih rest
          rw [hr] at this
          simpa using this
      · simp [ih r]

theorem splitOn_length (m s : Str) : (splitOn m s).length = occG m s + 1 := by
  rcases m with _ | ⟨c, m⟩
  · simp [splitOn, occG]
  · exact splitOnAux_length (c :: m) s.length s

theorem splitOnAux_singleton (m : Str) : ∀ fuel s x, splitOnAux m fuel s = [x] → s = x := by
  intro fuel
  induction fuel with
  | zero => intro s x h; simpa [splitOnAux] using h
  | succ fuel ih =>
    intro s x h
    rcases s with _ | ⟨c, rest⟩
    · simp only [splitOnAux, List.cons.injEq, and_true] at h
      exact h
    · simp only [splitOnAux] at h
      rcases hsp : stripPre m (c :: rest) with _ | r
      · rw [hsp] at h
        rcases hr : splitOnAux m fuel rest with _ | ⟨g, gs⟩
        · exact absurd hr (splitOnAux_ne_nil m fuel rest)
        · rw [hr] at h
          have hx : c :: g = x ∧ gs = [] := by
            constructor
            · exact (List.cons.injEq _ _ _ _ ▸ h).1
            · exact (List.cons.injEq _ _ _ _ ▸ h).2
          have hrest : rest = g := ih rest g (by rw [hr, hx.2])
          rw [hrest, hx.1]
      · rw [hsp] at h
        have : splitOnAux m fuel r = [] := (List.cons.injEq _ _ _ _ ▸ h).2
        exact absurd this (splitOnAux_ne_nil m fuel r)

theorem splitOnAux_pair (m : Str) : ∀ fuel s b a, splitOnAux m fuel s = [b, a] →
    s = b ++ m ++ a := by
  intro fuel
  induction fuel with
  | zero => intro s b a h; simp [splitOnAux] at h
  | succ fuel ih =>
    intro s b a h
    rcases s with _ | ⟨c, rest⟩
    · simp [splitOnAux] at h
    · simp only [splitOnAux] at h
      rcases hsp : stripPre m (c :: rest) with _ | r
      · rw [hsp] at h
        rcases hr : splitOnAux m fuel rest with _ | ⟨g, gs⟩
        · exact absurd hr (splitOnAux_ne_nil m fuel rest)
        · rw [hr] at h
          have hb : c :: g = b := (List.cons.injEq _ _ _ _ ▸ h).1
          have hgs : gs = [a] := (List.cons.injEq _ _ _ _ ▸ h).2
          have hrest : rest = g ++ m ++ a := ih rest g a (by rw [hr, hgs])
          rw [← hb, hrest]
          simp
      · rw [hsp] at h
        have hb : ([] : Str) = b := (List.cons.injEq _ _ _ _ ▸ h).1
        have hrec : splitOnAux m fuel r = [a] := (List.cons.injEq _ _ _ _ ▸ h).2
        have hra : r = a := splitOnAux_singleton m fuel r a hrec
        have hs : c :: rest = m ++ r := stripPre_eq_some hsp
        rw [hs, hra, ← hb]
        simp

theorem magic_isSome_iff (template marker : Str) :
    (magic template marker).isSome = true ↔ occG marker template = 1 := by
  have hlen := splitOn_length marker template
  unfold magic
  rcases hl : splitOn marker template with _ | ⟨b, t⟩
  · rw [hl] at hlen
    simp only [List.length_nil] at hlen
    exact absurd hlen (by omega)
  · rcases t with _ | ⟨a, t2⟩
    · rw [hl] at hlen
      simp only [List.length_cons, List.length_nil] at hlen
      show (none : Option SortedTemplate).isSome = true ↔ occG marker template = 1
      simp only [Option.isSome_none, Bool.false_eq_true, false_iff]
      omega
    · rcases t2 with _ | ⟨x, t3⟩
      · rw [hl] at hlen
        simp only [List.length_cons, List.length_nil] at hlen
        show (some (⟨b, a, []⟩ : SortedTemplate)).isSome = true ↔ occG marker template = 1
        simp only [Option.isSome_some, true_iff]
        omega
      · rw [hl] at hlen
        simp only [List.length_cons] at hlen
        show (none : Option SortedTemplate).isSome = true ↔ occG marker template = 1
        simp only [Option.isSome_none, Bool.false_eq_true, false_iff]
        omega

theorem magic_decomp {template marker : Str} {t : SortedTemplate}
    (h : magic template marker = some t) :
    t.contents = [] ∧ template = t.before ++ marker ++ t.after := by
  unfold magic at h
  rcases hl : splitOn marker template with _ | ⟨b, tl⟩ <;> rw [hl] at h
  · cases h
  · rcases tl with _ | ⟨a, t2⟩
    · cases h
    · rcases t2 with _ | ⟨x, t3⟩
      · have ht : t = ⟨b, a, []⟩ := (Option.some.inj h).symm
        subst ht
        refine ⟨rfl, ?_⟩
        rcases marker with _ | ⟨c, m⟩
        · simp only [splitOn] at hl
          have hlen : template.length + 2 = 2 := by
            have := congrArg List.length hl
            simpa using this
          have htempl : template = [] := List.length_eq_zero.1 (by omega)
          subst htempl
          simp only [List.map_nil, List.append_nil, List.nil_append] at hl ⊢
          have hb : b = [] := (List.cons.injEq _ _ _ _ ▸ hl).1.symm
          have ha : a = [] := by
            have := (List.cons.injEq _ _ _ _ ▸ hl).2
            exact ((List.cons.injEq _ _ _ _ ▸ this).1).symm
          rw [hb, ha]
          rfl
        · exact splitOnAux_pair (c :: m) template.length template b a hl
      · cases h

theorem wf_append {t : SortedTemplate} (ht : Wf t) (s : Str) : Wf (t.append s) := by
  unfold Wf SortedTemplate.append at *
  rw [isAsc_iff_pairwise] at ht ⊢
  exact pairwise_btreeInsert ht

theorem wf_foldl {t : SortedTemplate} (ht : Wf t) : ∀ l : List Str,
    Wf (l.foldl SortedTemplate.append t) := by
  intro l
  induction l generalizing t with
  | nil => exact ht
  | cons c l ih => exact ih (wf_append ht c)

theorem foldl_append_perm {l1 l2 : List Str} (h : l1.Perm l2) (t : SortedTemplate) :
    l1.foldl SortedTemplate.append t = l2.foldl SortedTemplate.append t := by
  refine h.foldl_eq' ?_ t
  intro x _ y _ z
  simp [SortedTemplate.append, btreeInsert_comm]

theorem pairwise_foldl_btreeInsert : ∀ (l : List Str) (acc : List Str),
    acc.Pairwise (· < ·) →
    (l.foldl (fun acc c => btreeInsert c acc) acc).Pairwise (· < ·) := by
  intro l
  induction l with
  | nil => intro acc h; exact h
  | cons c l ih => intro acc h; exact ih (btreeInsert c acc) (pairwise_btreeInsert h)

theorem wf_parse {F : FileFormat} {s : Str} {t : SortedTemplate}
    (h : parse F s = some t) : Wf t := by
  unfold parse at h
  split at h
  · exact Option.noConfusion h
  split at h
  · exact Option.noConfusion h
  split at h
  · exact Option.noConfusion h
  split at h
  · exact Option.noConfusion h
  split at h
  · exact Option.noConfusion h
  split at h
  · exact Option.noConfusion h
  have ht := (Option.some.inj h).symm
  subst ht
  unfold Wf
  rw [isAsc_iff_pairwise]
  exact pairwise_foldl_btreeInsert _ [] List.Pairwise.nil

theorem wf_beforeAfter (b a : Str) : Wf (SortedTemplate.beforeAfter b a) := rfl

theorem wf_magic {tm mk : Str} {t : SortedTemplate} (h : magic tm mk = some t) :
    Wf t := by
  have hc := (magic_decomp h).1
  unfold Wf
  rw [hc]
  rfl

/-- The `delta` vector as the spec describes it: the first fragment's own
length, then separator-plus-fragment length for the rest. -/
def deltasSpec (sep : Str) : List Str → List Nat
  | [] => []
  | c :: cs => c.length :: cs.map (fun x => sep.length + x.length)

theorem renderBody_fst_sep (fsep : Str) : ∀ cs : List Str,
    (renderBody fsep fsep cs).1 = (cs.map (fun x => fsep ++ x)).flatten := by
  intro cs
  induction cs with
  | nil => simp [renderBody]
  | cons c cs ih => simp [renderBody, ih]

theorem renderBody_snd_sep (fsep : Str) : ∀ cs : List Str,
    (renderBody fsep fsep cs).2 = cs.map (fun x => fsep.length + x.length) := by
  intro cs
  induction cs with
  | nil => simp [renderBody]
  | cons c cs ih => simp [renderBody, ih]

theorem joinSep_eq_flatten (fsep : Str) (c : Str) : ∀ cs : List Str,
    joinSep fsep (c :: cs) = c ++ (cs.map (fun x => fsep ++ x)).flatten := by
  intro cs
  induction cs generalizing c with
  | nil => simp [joinSep]
  | cons d cs ih => simp [joinSep, ih d, List.append_assoc]

theorem parse_none_of_no_nl {F : FileFormat} {s : Str} (h : '\n' ∉ s) :
    parse F s = none := by
  simp only [parse, rsplitNl_of_no_nl h]

theorem parse_none_of_bad_commentStart {F : FileFormat} {head tail : Str}
    (h : '\n' ∉ tail) (hcs : stripPre F.commentStart tail = none) :
    parse F (head ++ '\n' :: tail) = none := by
  simp only [parse, rsplitNl_append h, hcs]

theorem parse_none_of_bad_commentEnd {F : FileFormat} {head tail o1 : Str}
    (h : '\n' ∉ tail) (hcs : stripPre F.commentStart tail = some o1)
    (hce : stripSuf F.commentEnd o1 = none) :
    parse F (head ++ '\n' :: tail) = none := by
  simp only [parse, rsplitNl_append h, hcs, hce]

theorem parse_none_of_bad_locator {F : FileFormat} {head tail o1 o2 : Str}
    (h : '\n' ∉ tail) (hcs : stripPre F.commentStart tail = some o1)
    (hce : stripSuf F.commentEnd o1 = some o2) (hdec : decodeOffset o2 = none) :
    parse F (head ++ '\n' :: tail) = none := by
  simp only [parse, rsplitNl_append h, hcs, hce, hdec]

theorem parse_none_of_start_out_of_range {F : FileFormat} (hF : NoNlFmt F)
    {head : Str} {st : Nat} {dl : List Nat} (hst : head.length < st) :
    parse F (head ++ '\n' ::
      (F.commentStart ++ (encodeOffset ⟨st, dl⟩ ++ F.commentEnd))) = none := by
  have hnl : '\n' ∉ F.commentStart ++ (encodeOffset ⟨st, dl⟩ ++ F.commentEnd) := by
    intro hmem
    rcases List.mem_append.1 hmem with h1 | h1
    · exact hF.1 '\n' h1 rfl
    · rcases List.mem_append.1 h1 with h2 | h2
      · exact noNl_encodeOffset _ '\n' h2 rfl
      · exact hF.2 '\n' h2 rfl
  simp only [parse, rsplitNl_append hnl, stripPre_append, stripSuf_append,
    decodeOffset_encodeOffset]
  rw [checkedSplitAt, if_neg (by simp; omega)]

/-- C1: for every well-formed template (in any syntax whose comment
delimiters are newline-free, which includes both built-ins), `parse`
of `render` succeeds and returns a template with the same contents set,
prefix and suffix, and re-rendering it is byte-identical; `render` is by
construction a pure function of `(before, after, contents, syntax)`. -/
theorem claim1_parse_render_roundtrip (F : FileFormat) (t : SortedTemplate)
    (hF : NoNlFmt F) (ht : Wf t) :
    (NoNlFmt Html ∧ NoNlFmt Js) ∧
    parse F (render F t) = some t ∧
    (∀ t2, parse F (render F t) = some t2 →
      t2.contents = t.contents ∧ t2.before = t.before ∧ t2.after = t.after ∧
      render F t2 = render F t) := by
  refine ⟨⟨by decide, by decide⟩, parse_render hF ht, ?_⟩
  intro t2 h2
  rw [parse_render hF ht] at h2
  cases Option.some.inj h2
  exact ⟨rfl, rfl, rfl, rfl⟩

/-- C1 witness: the round trip at the `Js` format and a concrete
two-fragment template. -/
theorem claim1_witness :
    NoNlFmt Js ∧ Wf (⟨"[".data, "]".data, ["1".data, "2".data]⟩ : SortedTemplate) ∧
    parse Js (render Js ⟨"[".data, "]".data, ["1".data, "2".data]⟩) =
      some ⟨"[".data, "]".data, ["1".data, "2".data]⟩ :=
  ⟨by decide, by decide,
    (claim1_parse_render_roundtrip Js ⟨"[".data, "]".data, ["1".data, "2".data]⟩
      (by decide) (by decide)).2.1⟩

/-- C2: appending any two permutations of the same fragment multiset
gives byte-identical rendered output, and (starting from a well-formed
template) the contents — the emission sequence of `render` — are strictly
ascending in canonical-string order, independent of insertion order. -/
theorem claim2_append_order_independence (F : FileFormat) (t : SortedTemplate)
    (l1 l2 : List Str) (hperm : l1.Perm l2) :
    render F (l1.foldl SortedTemplate.append t) =
      render F (l2.foldl SortedTemplate.append t) ∧
    (Wf t → ((l1.foldl SortedTemplate.append t).contents).Pairwise (· < ·)) := by
  constructor
  · rw [foldl_append_perm hperm]
  · intro ht
    exact (isAsc_iff_pairwise _).1 (wf_foldl ht l1)

/-- C2 witness: two orders of the same two appends render identically. -/
theorem claim2_witness :
    render Js (["2".data, "1".data].foldl SortedTemplate.append
        (SortedTemplate.beforeAfter "[".data "]".data)) =
      render Js (["1".data, "2".data].foldl SortedTemplate.append
        (SortedTemplate.beforeAfter "[".data "]".data)) ∧
    ((["2".data, "1".data].foldl SortedTemplate.append
        (SortedTemplate.beforeAfter "[".data "]".data)).contents).Pairwise (· < ·) := by
  have h := claim2_append_order_independence Js
    (SortedTemplate.beforeAfter "[".data "]".data)
    ["2".data, "1".data] ["1".data, "2".data] (by decide)
  exact ⟨h.1, h.2 (by decide)⟩

/-- C3: appending an already-present fragment is a no-op (both at the
state level and on rendered output), and every template reachable by the
API (blank construction, `magic`, `parse`, any `append`s) has
duplicate-free contents. -/
theorem claim3_append_idempotent_dedup (F : FileFormat) (t : SortedTemplate) (s : Str)
    (l : List Str) :
    (t.append s).append s = t.append s ∧
    render F ((t.append s).append s) = render F (t.append s) ∧
    (Wf t → s ∈ t.contents → t.append s = t) ∧
    (Wf t → ((l.foldl SortedTemplate.append t).contents).Nodup) ∧
    (∀ b a, Wf (SortedTemplate.beforeAfter b a)) ∧
    (∀ s2 t2, parse F s2 = some t2 → Wf t2) ∧
    (∀ tm mk t2, magic tm mk = some t2 → Wf t2) := by
  have h1 : (t.append s).append s = t.append s := by
    simp [SortedTemplate.append, btreeInsert_idem]
  refine ⟨h1, by rw [h1], ?_, ?_, wf_beforeAfter, fun s2 t2 h => wf_parse h,
    fun tm mk t2 h => wf_magic h⟩
  · intro ht hm
    have h2 : btreeInsert s t.contents = t.contents :=
      btreeInsert_of_mem ((isAsc_iff_pairwise _).1 ht) hm
    simp [SortedTemplate.append, h2]
  · intro ht
    have hp := (isAsc_iff_pairwise _).1 (wf_foldl ht l)
    exact hp.imp (fun h => ne_of_lt h)

/-- C3 witness: appending `"1"` to a template already holding `"1"` is a
no-op, and a duplicate-append history has duplicate-free contents. -/
theorem claim3_witness :
    (⟨"[".data, "]".data, ["1".data]⟩ : SortedTemplate).append "1".data =
      ⟨"[".data, "]".data, ["1".data]⟩ ∧
    ((["1".data, "1".data].foldl SortedTemplate.append
      (⟨"[".data, "]".data, ["1".data]⟩ : SortedTemplate)).contents).Nodup :=
  ⟨(claim3_append_idempotent_dedup Js ⟨"[".data, "]".data, ["1".data]⟩ "1".data []).2.2.1
      (by decide) (by decide),
    (claim3_append_idempotent_dedup Js ⟨"[".data, "]".data, ["1".data]⟩ "1".data
      ["1".data, "1".data]).2.2.2.1 (by decide)⟩

/-- C4: `render` emits exactly prefix, the fragments joined by the
separator, suffix, a newline, and the comment-wrapped locator whose
`start` is the length of the prefix and whose deltas are the emitted
length of each fragment including its leading separator (none on the
first); for well-formed templates the fragments are emitted ascending. -/
theorem claim4_render_layout (F : FileFormat) (t : SortedTemplate) :
    render F t =
      t.before ++ joinSep F.separator t.contents ++ t.after ++ '\n' ::
        (F.commentStart ++
          encodeOffset ⟨t.before.length, deltasSpec F.separator t.contents⟩ ++
          F.commentEnd) ∧
    (Wf t → t.contents.Pairwise (· < ·)) := by
  constructor
  · rcases hc : t.contents with _ | ⟨c, cs⟩
    · simp [render, renderBody, joinSep, deltasSpec, hc]
    · simp only [render, hc, renderBody, renderBody_fst_sep, renderBody_snd_sep]
      rw [joinSep_eq_flatten]
      simp [deltasSpec, List.append_assoc]
  · intro ht
    exact (isAsc_iff_pairwise _).1 ht

/-- C4 witness: the layout at a concrete sorted template. -/
theorem claim4_witness :
    render Js ⟨"[".data, "]".data, ["1".data, "22".data]⟩ =
      "[".data ++ joinSep Js.separator ["1".data, "22".data] ++ "]".data ++ '\n' ::
        (Js.commentStart ++
          encodeOffset ⟨("[".data : Str).length,
            deltasSpec Js.separator ["1".data, "22".data]⟩ ++
          Js.commentEnd) ∧
    (["1".data, "22".data] : List Str).Pairwise (· < ·) :=
  ⟨(claim4_render_layout Js ⟨"[".data, "]".data, ["1".data, "22".data]⟩).1,
    (claim4_render_layout Js ⟨"[".data, "]".data, ["1".data, "22".data]⟩).2 (by decide)⟩

/-- C5 counterexample: with template text `"aaa"` and marker `"aa"` the
marker occurs at two positions (0 and 1), yet the split constructor
succeeds — refuting "succeeds if and only if the marker occurs exactly
once" under the positional-occurrence reading. -/
theorem claim5_counterexample :
    ¬ ((magic "aaa".data "aa".data).isSome = true ↔
        countOcc "aa".data "aaa".data = 1) ∧
    (magic "aaa".data "aa".data).isSome = true ∧
    countOcc "aa".data "aaa".data = 2 := by
  refine ⟨by decide, by decide, by decide⟩

/-- C5 (amended): construction by splitting succeeds iff a greedy
left-to-right non-overlapping scan finds exactly one occurrence of the
marker (for non-self-overlapping markers this is the plain occurrence
count); on success the template splits the text around that occurrence
and has empty contents. -/
theorem claim5_magic_amended (template marker : Str) :
    ((magic template marker).isSome = true ↔ occG marker template = 1) ∧
    (∀ t, magic template marker = some t →
      t.contents = [] ∧ template = t.before ++ marker ++ t.after) :=
  ⟨magic_isSome_iff template marker, fun _ h => magic_decomp h⟩

/-- C5 witness: `magic "[#]" "#"` succeeds and splits into `"["`/`"]"`. -/
theorem claim5_witness :
    (magic "[#]".data "#".data).isSome = true ∧
    "[#]".data = "[".data ++ "#".data ++ "]".data :=
  ⟨(claim5_magic_amended "[#]".data "#".data).1.mpr (by decide),
    ((claim5_magic_amended "[#]".data "#".data).2 ⟨"[".data, "]".data, []⟩ (by decide)).2⟩

/-- C6: per output path, with read mode on: file-not-found falls back to
the blank template, a successful read is parsed (parse success is used,
parse failure aborts with the path attached, as does any other read
error); with read mode off the result is always the blank template,
regardless of what is on disk. -/
theorem claim6_initial_template (F : FileFormat) (path : Str) (blank : SortedTemplate) :
    (initialTemplate F true path .notFound blank = .ok blank) ∧
    (∀ s t, parse F s = some t → initialTemplate F true path (.found s) blank = .ok t) ∧
    (∀ s, parse F s = none →
      initialTemplate F true path (.found s) blank = .error ⟨path⟩) ∧
    (initialTemplate F true path .otherErr blank = .error ⟨path⟩) ∧
    (∀ d, initialTemplate F false path d blank = .ok blank) := by
  refine ⟨rfl, ?_, ?_, rfl, fun d => rfl⟩
  · intro s t h
    simp [initialTemplate, h]
  · intro s h
    simp [initialTemplate, h]

/-- C6 witness: an unparsable on-disk file aborts with the path. -/
theorem claim6_witness :
    initialTemplate Js true "p".data (.found []) (SortedTemplate.beforeAfter [] []) =
      .error ⟨"p".data⟩ :=
  (claim6_initial_template Js "p".data (SortedTemplate.beforeAfter [] [])).2.2.1 []
    (by decide)

/-- C7 counterexample: the fragment lists `["a", "a"]` and `["a"]` supply
the same *set* of items but `array` renders them differently — output is
a function of the supplied multiset, not of the supplied set. -/
theorem claim7_counterexample :
    [SortedJson.preserialized "a".data, SortedJson.preserialized "a".data].toFinset =
      [SortedJson.preserialized "a".data].toFinset ∧
    SortedJson.array [SortedJson.preserialized "a".data, SortedJson.preserialized "a".data] ≠
      SortedJson.array [SortedJson.preserialized "a".data] := by
  refine ⟨by decide, by decide⟩

/-- C7 (amended): for any two construction call sequences supplying the
same multiset of items, `array` produces byte-identical output; `object`
produces byte-identical output provided no two supplied pairs have equal
serialized keys (with duplicate keys the unstable key-only sort preserves
the two different input orders). -/
theorem claim7_order_independence (l1 l2 : List SortedJson)
    (ps1 ps2 : List (SortedJson × SortedJson)) (h : l1.Perm l2) (hp : ps1.Perm ps2)
    (hnd : (ps1.map (fun kv => kv.1)).Nodup) :
    SortedJson.array l1 = SortedJson.array l2 ∧
    SortedJson.object ps1 = SortedJson.object ps2 :=
  ⟨array_perm h, object_perm hp hnd⟩

/-- C7 witness: concrete permuted inputs for `array` and `object`. -/
theorem claim7_witness :
    SortedJson.array [SortedJson.preserialized "b".data, SortedJson.preserialized "a".data] =
      SortedJson.array [SortedJson.preserialized "a".data, SortedJson.preserialized "b".data] ∧
    SortedJson.object [(SortedJson.preserialized "\"b\"".data, SortedJson.preserialized "1".data),
        (SortedJson.preserialized "\"a\"".data, SortedJson.preserialized "2".data)] =
      SortedJson.object [(SortedJson.preserialized "\"a\"".data, SortedJson.preserialized "2".data),
        (SortedJson.preserialized "\"b\"".data, SortedJson.preserialized "1".data)] :=
  claim7_order_independence
    [SortedJson.preserialized "b".data, SortedJson.preserialized "a".data]
    [SortedJson.preserialized "a".data, SortedJson.preserialized "b".data]
    [(SortedJson.preserialized "\"b\"".data, SortedJson.preserialized "1".data),
      (SortedJson.preserialized "\"a\"".data, SortedJson.preserialized "2".data)]
    [(SortedJson.preserialized "\"a\"".data, SortedJson.preserialized "2".data),
      (SortedJson.preserialized "\"b\"".data, SortedJson.preserialized "1".data)]
    (by decide) (by decide) (by decide)

/-- C8: the concrete serializations the spec promises: `array` sorts
`"c","a","b"` into `["a","b","c"]`, `object` sorts by serialized key,
`array_unsorted` preserves caller order; and the emitted item list of
`array` is always sorted by the canonical-string comparison `sjLe`. -/
theorem claim8_sorted_json_renders :
    (SortedJson.array (["c", "a", "b"].map (fun s => SortedJson.serializeStr s.data))).val =
      "[\"a\",\"b\",\"c\"]".data ∧
    (SortedJson.object ([("c", 1), ("a", 10), ("b", 3)].map
        (fun kv => (SortedJson.serializeStr kv.1.data, SortedJson.serializeNat kv.2)))).val =
      "\x7b\"a\":10,\"b\":3,\"c\":1\x7d".data ∧
    (SortedJson.arrayUnsorted (["c", "a", "b"].map
        (fun s => SortedJson.serializeStr s.data))).val =
      "[\"c\",\"a\",\"b\"]".data ∧
    (∀ items : List SortedJson, (List.insertionSort sjLe items).Pairwise sjLe) :=
  ⟨by decide, by decide, by decide,
    fun items => List.sorted_insertionSort sjLe items⟩

/-- C9: loading all record files returns the decoded records iff every
file is readable and decodable; any failure fails the whole operation
with the offending path attached, and no list is returned. -/
theorem claim9_load_all {CI : Type} (fsRead : Str → Option Str) (decode : Str → Option CI)
    (paths : List Str) :
    ((∃ l, readAllRecords fsRead decode paths = Except.ok l) ↔
      ∀ p ∈ paths, ∃ c, fsRead p = some c ∧ (decode c).isSome = true) ∧
    (∀ e, readAllRecords fsRead decode paths = Except.error e →
      e.path ∈ paths ∧ (fsRead e.path = none ∨
        ∃ c, fsRead e.path = some c ∧ decode c = none)) := by
  induction paths with
  | nil =>
    refine ⟨⟨fun _ p hp => absurd hp (List.not_mem_nil p), fun _ => ⟨[], rfl⟩⟩, ?_⟩
    intro e he
    exact Except.noConfusion he
  | cons p ps ih =>
    obtain ⟨ih1, ih2⟩ := ih
    rcases h1 : fsRead p with _ | c
    · refine ⟨⟨?_, ?_⟩, ?_⟩
      · rintro ⟨l, hl⟩
        simp only [readAllRecords, h1] at hl
        exact Except.noConfusion hl
      · intro hall
        obtain ⟨c, hc, _⟩ := hall p (by simp)
        rw [h1] at hc
        exact Option.noConfusion hc
      · intro e he
        simp only [readAllRecords, h1, Except.error.injEq] at he
        subst he
        exact ⟨by simp, Or.inl h1⟩
    · rcases h2 : decode c with _ | ci
      · refine ⟨⟨?_, ?_⟩, ?_⟩
        · rintro ⟨l, hl⟩
          simp only [readAllRecords, h1, h2] at hl
          exact Except.noConfusion hl
        · intro hall
          obtain ⟨c2, hc2, hd⟩ := hall p (by simp)
          rw [h1] at hc2
          cases Option.some.inj hc2
          rw [h2] at hd
          exact Bool.noConfusion hd
        · intro e he
          simp only [readAllRecords, h1, h2, Except.error.injEq] at he
          subst he
          exact ⟨by simp, Or.inr ⟨c, h1, h2⟩⟩
      · rcases h3 : readAllRecords fsRead decode ps with e2 | rest
        · refine ⟨⟨?_, ?_⟩, ?_⟩
          · rintro ⟨l, hl⟩
            simp only [readAllRecords, h1, h2, h3] at hl
            exact Except.noConfusion hl
          · intro hall
            have hps : ∀ q ∈ ps, ∃ c2, fsRead q = some c2 ∧ (decode c2).isSome = true :=
              fun q hq => hall q (List.mem_cons_of_mem p hq)
            obtain ⟨l, hl⟩ := ih1.mpr hps
            rw [h3] at hl
            exact Except.noConfusion hl
          · intro e he
            simp only [readAllRecords, h1, h2, h3, Except.error.injEq] at he
            subst he
            obtain ⟨hm, hr⟩ := ih2 e2 h3
            exact ⟨List.mem_cons_of_mem p hm, hr⟩
        · refine ⟨⟨?_, ?_⟩, ?_⟩
          · intro _ q hq
            rcases List.mem_cons.1 hq with rfl | hq2
            · exact ⟨c, h1, by rw [h2]; rfl⟩
            · exact (ih1.mp ⟨rest, h3⟩) q hq2
          · intro _
            refine ⟨ci :: rest, ?_⟩
            simp only [readAllRecords, h1, h2, h3]
          · intro e he
            simp only [readAllRecords, h1, h2, h3] at he
            exact Except.noConfusion he

/-- A filesystem where every read fails, for the C9 witness. -/
def wfsRead : Str → Option Str := fun _ => none

/-- A decoder that accepts nothing, for the C9 witness. -/
def wdecode : Str → Option Nat := fun _ => none

/-- C9 witness: on an unreadable path the whole load fails, tagged with
that path. -/
theorem claim9_witness :
    (⟨"b".data⟩ : PathError).path ∈ ["b".data] ∧
    (wfsRead (⟨"b".data⟩ : PathError).path = none ∨
      ∃ c, wfsRead (⟨"b".data⟩ : PathError).path = some c ∧ wdecode c = none) :=
  (claim9_load_all wfsRead wdecode ["b".data]).2 ⟨"b".data⟩ rfl

/-- C10: the template deserializer is a total function into `Option`:
every cut is guarded (`checkedSplitAt` succeeds exactly on in-range
indices), and each malformation — no final newline, missing comment
delimiters, undecodable locator, out-of-range start offset, out-of-range
delta cut, or a separator-prefix mismatch — yields `none` (the format
error) rather than a crash. -/
theorem claim10_parse_total_failure_modes :
    (∀ (s : Str) (i : Nat), (checkedSplitAt s i).isSome = true ↔ i ≤ s.length) ∧
    (∀ (F : FileFormat) (s : Str), '\n' ∉ s → parse F s = none) ∧
    (∀ (F : FileFormat) (head tail : Str), '\n' ∉ tail →
      stripPre F.commentStart tail = none → parse F (head ++ '\n' :: tail) = none) ∧
    (∀ (F : FileFormat) (head tail o1 : Str), '\n' ∉ tail →
      stripPre F.commentStart tail = some o1 → stripSuf F.commentEnd o1 = none →
      parse F (head ++ '\n' :: tail) = none) ∧
    (∀ (F : FileFormat) (head tail o1 o2 : Str), '\n' ∉ tail →
      stripPre F.commentStart tail = some o1 → stripSuf F.commentEnd o1 = some o2 →
      decodeOffset o2 = none → parse F (head ++ '\n' :: tail) = none) ∧
    (∀ (F : FileFormat) (head : Str) (st : Nat) (dl : List Nat), NoNlFmt F →
      head.length < st →
      parse F (head ++ '\n' ::
        (F.commentStart ++ (encodeOffset ⟨st, dl⟩ ++ F.commentEnd))) = none) ∧
    parse Js ("ab\n//\x7b\"start\":0,\"delta\":[5]\x7d").data = none ∧
    parse Js ("ab\n//\x7b\"start\":0,\"delta\":[1,1]\x7d").data = none := by
  refine ⟨?_, ?_, ?_, ?_, ?_, ?_, by decide, by decide⟩
  · intro s i
    unfold checkedSplitAt
    split_ifs with h
    · simpa using h
    · simpa using h
  · intro F s h
    exact parse_none_of_no_nl h
  · intro F head tail h hcs
    exact parse_none_of_bad_commentStart h hcs
  · intro F head tail o1 h hcs hce
    exact parse_none_of_bad_commentEnd h hcs hce
  · intro F head tail o1 o2 h hcs hce hdec
    exact parse_none_of_bad_locator h hcs hce hdec
  · intro F head st dl hF hst
    exact parse_none_of_start_out_of_range hF hst

/-- C10 witness: a string without a newline is rejected with the format
error. -/
theorem claim10_witness : parse Js "ab".data = none :=
  claim10_parse_total_failure_modes.2.1 Js "ab".data (by decide)

end Rustdoc
